import Mathlib

/-!
# Verification of the imgScale bounded LRU cache and its backing stores

Shallow embedding of the Go sources:
* `internal/cache/lru.go`    — `LRUCache` (`Get`, `Set`, `Delete`, `removeOldest`)
* `internal/storage/memory.go` — `MemoryStorage` (`Get`, `Set`, `Delete`, `Size`)
* `internal/storage/file.go`   — `FileStorage` (`sanitizeKey`, `Get`, `Set`, `Delete`, `Size`)

Modelling conventions:
* byte slices are `List Nat`; Go errors are their message strings (`Err`);
* a `context.Context` is `Option Err`: `none` means `ctx.Err() == nil`,
  `some e` means the context is cancelled/expired with error message `e`;
* the cache's `container/list` + `items` map pair is one association list
  `entries`, front = most recently used (the Go code keeps the map and the
  list in lock step: a key is in the map iff its element is in the list);
* the backing store is abstract: a `StoreOps σ` record of the three
  key-addressed operations (each returns a result and the next store state),
  instantiated by the memory and filesystem models below;
* `Set`'s eviction loop (`for c.list.Len() > c.capacity`) does not terminate
  when the list is empty and the capacity is negative (`removeOldest` is a
  no-op on an empty list); the loop is therefore modelled with result type
  `Option`, `none` standing for that divergence.
-/

abbrev Bytes := List Nat

abbrev Err := String

/-- `ctx.Err()`: `none` = live context, `some e` = cancelled/expired. -/
abbrev Ctx := Option Err

/-- Association-list lookup by key, first match wins (the lists built by the
model never hold a key twice, mirroring Go's map / keyed list element). -/
def lookupKey (k : String) : List (String × Bytes) → Option Bytes
  | [] => none
  | (k', v) :: rest => if k' = k then some v else lookupKey k rest

/-- Remove the first binding of key `k` (Go: `list.Remove(elem)` /
`delete(map, k)` of the unique element holding `k`). -/
def eraseKey (k : String) : List (String × Bytes) → List (String × Bytes)
  | [] => []
  | (k', v) :: rest => if k' = k then rest else (k', v) :: eraseKey k rest

/-- Go map assignment `m[k] = v`: replace the binding in place, or add it. -/
def mapSet (d : List (String × Bytes)) (k : String) (v : Bytes) :
    List (String × Bytes) :=
  match d with
  | [] => [(k, v)]
  | (k', v') :: rest => if k' = k then (k, v) :: rest else (k', v') :: mapSet rest k v

/-- Go map deletion `delete(m, k)`: the key is gone afterwards. -/
def mapDel (d : List (String × Bytes)) (k : String) : List (String × Bytes) :=
  match d with
  | [] => []
  | (k', v') :: rest => if k' = k then mapDel rest k else (k', v') :: mapDel rest k

/-- The `storage.Storage` interface seen by the cache: each operation takes
the store state and returns a Go-style result together with the next state
(an instrumented store may record the call in its state). -/
structure StoreOps (σ : Type) where
  get : σ → String → (Except Err Bytes) × σ
  set : σ → String → Bytes → (Except Err Unit) × σ
  del : σ → String → (Except Err Unit) × σ

/-- `cache.LRUCache`: capacity (a Go `int`), the recency index
(front = most recently used; models the `list.List` plus the `items` map),
and the backing store state. -/
structure LRUCache (σ : Type) where
  capacity : Int
  entries : List (String × Bytes)
  store : σ

/-- `cache.NewLRUCache`: empty index over the given store. -/
def NewLRUCache (capacity : Int) (store : σ) : LRUCache σ :=
  { capacity := capacity, entries := [], store := store }

/-- `LRUCache.removeOldest`: take the back element, drop it from the index,
then delete it from the store, wrapping a delete failure as
`failed to delete from storage: <err>`. A nil back element is a no-op. -/
def removeOldest (ops : StoreOps σ) (entries : List (String × Bytes)) (st : σ) :
    (Except Err Unit) × List (String × Bytes) × σ :=
  match entries.getLast? with
  | none => (Except.ok (), entries, st)
  | some (k, _) =>
    match ops.del st k with
    | (Except.error e, st') =>
      (Except.error ("failed to delete from storage: " ++ e), entries.dropLast, st')
    | (Except.ok _, st') => (Except.ok (), entries.dropLast, st')

/-- `Set`'s loop `for c.list.Len() > c.capacity { removeOldest }`, with
fuel for structural recursion: each iteration that recurses drops exactly
one entry, so `entries.length` iterations always suffice and the fuel-out
branch is unreachable from `evictLoop` below. `none` models divergence:
when the list is empty but its length still exceeds the capacity (negative
capacity), the Go loop spins forever (`removeOldest` is then a no-op). -/
def evictLoopAux (ops : StoreOps σ) (cap : Int) :
    Nat → List (String × Bytes) → σ →
    Option ((Except Err Unit) × List (String × Bytes) × σ)
  | fuel, entries, st =>
    if (entries.length : Int) > cap then
      match entries.getLast? with
      | none => none
      | some (k, _) =>
        match ops.del st k with
        | (Except.error e, st') =>
          some (Except.error ("failed to delete from storage: " ++ e),
            entries.dropLast, st')
        | (Except.ok _, st') =>
          match fuel with
          | 0 => none
          | fuel' + 1 => evictLoopAux ops cap fuel' entries.dropLast st'
    else
      some (Except.ok (), entries, st)

/-- The eviction loop of `LRUCache.Set`. -/
def evictLoop (ops : StoreOps σ) (cap : Int) (entries : List (String × Bytes))
    (st : σ) : Option ((Except Err Unit) × List (String × Bytes) × σ) :=
  evictLoopAux ops cap entries.length entries st

/-- `LRUCache.Get`: index hit moves the element to the front and returns its
bytes without touching the store; miss reads through the store, inserts at
the front and runs a single `removeOldest` when over capacity. -/
def LRUCache.Get (ops : StoreOps σ) (c : LRUCache σ) (key : String) :
    (Except Err Bytes) × LRUCache σ :=
  match lookupKey key c.entries with
  | some v =>
    (Except.ok v, { c with entries := (key, v) :: eraseKey key c.entries })
  | none =>
    match ops.get c.store key with
    | (Except.error e, st') => (Except.error e, { c with store := st' })
    | (Except.ok data, st') =>
      let entries := (key, data) :: c.entries
      if (entries.length : Int) > c.capacity then
        match removeOldest ops entries st' with
        | (Except.error e, entries', st'') =>
          (Except.error e, { capacity := c.capacity, entries := entries', store := st'' })
        | (Except.ok _, entries', st'') =>
          (Except.ok data, { capacity := c.capacity, entries := entries', store := st'' })
      else
        (Except.ok data, { capacity := c.capacity, entries := entries, store := st' })

/-- `LRUCache.Set`: write through to the store first (a failure leaves the
index untouched); then refresh an existing entry in place, or insert at the
front and run the eviction loop. `none` = the eviction loop diverges. -/
def LRUCache.Set (ops : StoreOps σ) (c : LRUCache σ) (key : String) (value : Bytes) :
    Option ((Except Err Unit) × LRUCache σ) :=
  match ops.set c.store key value with
  | (Except.error e, st') => some (Except.error e, { c with store := st' })
  | (Except.ok _, st') =>
    match lookupKey key c.entries with
    | some _ =>
      some (Except.ok (),
        { c with store := st', entries := (key, value) :: eraseKey key c.entries })
    | none =>
      match evictLoop ops c.capacity ((key, value) :: c.entries) st' with
      | none => none
      | some (r, entries', st'') =>
        some (r, { capacity := c.capacity, entries := entries', store := st'' })

/-- `LRUCache.Delete`: drop the key from the index if present, then delete
it from the store unconditionally. -/
def LRUCache.Delete (ops : StoreOps σ) (c : LRUCache σ) (key : String) :
    (Except Err Unit) × LRUCache σ :=
  let (r, st') := ops.del c.store key
  (r, { capacity := c.capacity, entries := eraseKey key c.entries, store := st' })

/-! ## Memory storage (`internal/storage/memory.go`) -/

/-- `storage.MemoryStorage`: a Go map from key to bytes. -/
structure MemoryStorage where
  data : List (String × Bytes)

/-- `os.ErrNotExist.Error()`. -/
def errNotExist : Err := "file does not exist"

/-- `MemoryStorage.Get`: context check, then map lookup;
misses fail with `os.ErrNotExist`. -/
def MemoryStorage.Get (ctx : Ctx) (s : MemoryStorage) (key : String) :
    (Except Err Bytes) × MemoryStorage :=
  match ctx with
  | some e => (Except.error e, s)
  | none =>
    match lookupKey key s.data with
    | none => (Except.error errNotExist, s)
    | some v => (Except.ok v, s)

/-- `MemoryStorage.Set`: context check, then `s.data[key] = data`. -/
def MemoryStorage.Set (ctx : Ctx) (s : MemoryStorage) (key : String) (data : Bytes) :
    (Except Err Unit) × MemoryStorage :=
  match ctx with
  | some e => (Except.error e, s)
  | none => (Except.ok (), { data := mapSet s.data key data })

/-- `MemoryStorage.Delete`: context check, then `delete(s.data, key)`. -/
def MemoryStorage.Delete (ctx : Ctx) (s : MemoryStorage) (key : String) :
    (Except Err Unit) × MemoryStorage :=
  match ctx with
  | some e => (Except.error e, s)
  | none => (Except.ok (), { data := mapDel s.data key })

/-- `MemoryStorage.Size`: `len(s.data)`; the method takes no context. -/
def MemoryStorage.Size (s : MemoryStorage) : Nat :=
  s.data.length

/-- The memory store packaged as the cache's `storage.Storage`, every call
made with the given context. -/
def memOps (ctx : Ctx) : StoreOps MemoryStorage where
  get := fun s k => MemoryStorage.Get ctx s k
  set := fun s k v => MemoryStorage.Set ctx s k v
  del := fun s k => MemoryStorage.Delete ctx s k

/-! ## File storage (`internal/storage/file.go`)

The directory under `baseDir` is modelled as a flat map from file name to
contents (`files`), with filesystem I/O always succeeding; `sanitizeKey`
never produces a path separator, so `filepath.Join(baseDir, safeKey)`
addresses exactly one flat name per sanitized key. -/

/-- Go `strings.ReplaceAll` on character lists: scan left to right, replace
each non-overlapping occurrence of `pat`. (The callers below always pass a
non-empty `pat`; an empty `pat` is treated as no match.) Structured with
fuel: every step consumes at least one character and one unit of fuel, so
fuel = input length always suffices and the fuel-out branch is unreachable
from `replaceAll` below. -/
def replaceAllAux (pat repl : List Char) : Nat → List Char → List Char
  | _, [] => []
  | 0, l => l
  | fuel + 1, c :: rest =>
    if pat ≠ [] ∧ pat.isPrefixOf (c :: rest) then
      repl ++ replaceAllAux pat repl fuel ((c :: rest).drop pat.length)
    else
      c :: replaceAllAux pat repl fuel rest

/-- `strings.ReplaceAll pat repl` on a character list. -/
def replaceAll (pat repl : List Char) (l : List Char) : List Char :=
  replaceAllAux pat repl l.length l

/-- `FileStorage.sanitizeKey`: empty key ↦ `"empty"`; replace `:`, `/`, `\`
with `_`, then `..` with `__`, then strip leading underscores. -/
def sanitizeKey (key : String) : String :=
  if key = "" then "empty"
  else
    let cs := replaceAll [':'] ['_'] key.toList
    let cs := replaceAll ['/'] ['_'] cs
    let cs := replaceAll ['\\'] ['_'] cs
    let cs := replaceAll ['.', '.'] ['_', '_'] cs
    String.mk (cs.dropWhile (fun c => c = '_'))

/-- `storage.FileStorage`: the files under `baseDir` (name ↦ contents) and
the `size` counter maintained by `Set`/`Delete`. -/
structure FileStorage where
  files : List (String × Bytes)
  size : Int

/-- `FileStorage.Get`: context check, sanitize, open the file;
a missing file fails with `os.ErrNotExist`. -/
def FileStorage.Get (ctx : Ctx) (s : FileStorage) (key : String) :
    (Except Err Bytes) × FileStorage :=
  match ctx with
  | some e => (Except.error e, s)
  | none =>
    match lookupKey (sanitizeKey key) s.files with
    | none => (Except.error errNotExist, s)
    | some v => (Except.ok v, s)

/-- `FileStorage.Set`: context check, sanitize, note whether the file
already exists, write it, and bump `size` only for a new file. -/
def FileStorage.Set (ctx : Ctx) (s : FileStorage) (key : String) (data : Bytes) :
    (Except Err Unit) × FileStorage :=
  match ctx with
  | some e => (Except.error e, s)
  | none =>
    let path := sanitizeKey key
    let already := (lookupKey path s.files).isSome
    (Except.ok (),
      { files := mapSet s.files path data,
        size := if already then s.size else s.size + 1 })

/-- `FileStorage.Delete`: context check, sanitize; a missing file is a
successful no-op, otherwise remove it and decrement `size`. -/
def FileStorage.Delete (ctx : Ctx) (s : FileStorage) (key : String) :
    (Except Err Unit) × FileStorage :=
  match ctx with
  | some e => (Except.error e, s)
  | none =>
    let path := sanitizeKey key
    match lookupKey path s.files with
    | none => (Except.ok (), s)
    | some _ => (Except.ok (), { files := mapDel s.files path, size := s.size - 1 })

/-- `FileStorage.Size`: the maintained counter; the method takes no context. -/
def FileStorage.Size (s : FileStorage) : Int :=
  s.size

/-! ## Instrumentation and operation sequences -/

/-- One recorded invocation of a backing-store method. -/
inductive StoreCall
  | get (key : String)
  | set (key : String) (value : Bytes)
  | del (key : String)
deriving DecidableEq

/-- Wrap a store so that its state also records every method invocation
(the mock-storage instrumentation of the Go tests). -/
def withLog (ops : StoreOps σ) : StoreOps (σ × List StoreCall) where
  get := fun s k =>
    match ops.get s.1 k with
    | (r, st') => (r, (st', s.2 ++ [StoreCall.get k]))
  set := fun s k v =>
    match ops.set s.1 k v with
    | (r, st') => (r, (st', s.2 ++ [StoreCall.set k v]))
  del := fun s k =>
    match ops.del s.1 k with
    | (r, st') => (r, (st', s.2 ++ [StoreCall.del k]))

/-- One public cache operation. -/
inductive CacheOp
  | get (key : String)
  | set (key : String) (value : Bytes)
  | del (key : String)

/-- Run one public operation, keeping the resulting cache state (the Go
cache object persists across calls whether or not the call errored);
`none` = the call diverged. -/
def runOp (ops : StoreOps σ) (c : LRUCache σ) : CacheOp → Option (LRUCache σ)
  | CacheOp.get k => some (LRUCache.Get ops c k).2
  | CacheOp.set k v => (LRUCache.Set ops c k v).map (fun r => r.2)
  | CacheOp.del k => some (LRUCache.Delete ops c k).2

/-- Run a sequence of public operations. -/
def runOps (ops : StoreOps σ) (c : LRUCache σ) : List CacheOp → Option (LRUCache σ)
  | [] => some c
  | op :: rest =>
    match runOp ops c op with
    | none => none
    | some c' => runOps ops c' rest

/-- Run a sequence of `Set` calls, requiring every one of them to return
successfully (`none` otherwise). -/
def setAll (ops : StoreOps σ) (c : LRUCache σ) :
    List (String × Bytes) → Option (LRUCache σ)
  | [] => some c
  | (k, v) :: rest =>
    match LRUCache.Set ops c k v with
    | some (Except.ok _, c') => setAll ops c' rest
    | _ => none

/-- Modelled from the spec: claim C8 reads `Size` as taking the execution
context as first parameter and failing with the context's error when it is
already cancelled or expired. The code's `MemoryStorage.Size` takes no
context; this definition follows the claim's words for comparison. -/
def sizeWithCtxClaim (ctx : Ctx) (s : MemoryStorage) : Except Err Nat :=
  match ctx with
  | some e => Except.error e
  | none => Except.ok s.data.length

/-- A store stub whose writes fail: fixture for the write-error theorems. -/
def failSetOps : StoreOps Unit where
  get := fun s _ => (Except.error errNotExist, s)
  set := fun s _ _ => (Except.error "disk full", s)
  del := fun s _ => (Except.ok (), s)

/-- A store stub whose deletes fail: fixture for the eviction-error theorems
(mirrors the mock of `TestLRUCache_ErrorHandling`). -/
def failDelOps : StoreOps Unit where
  get := fun s _ => (Except.error errNotExist, s)
  set := fun s _ _ => (Except.ok (), s)
  del := fun s _ => (Except.error "storage error", s)

/-! ## Association-list lemmas -/

theorem lookupKey_eq_none (k : String) (l : List (String × Bytes))
    (h : k ∉ l.map Prod.fst) : lookupKey k l = none := by
  induction l with
  | nil => rfl
  | cons p rest ih =>
    simp only [List.map_cons, List.mem_cons] at h
    push_neg at h
    have h1 : ¬ (p.1 = k) := fun he => h.1 he.symm
    simp only [lookupKey]
    rw [if_neg h1, ih h.2]

theorem length_eraseKey_of_lookup (k : String) (l : List (String × Bytes)) (v : Bytes)
    (h : lookupKey k l = some v) : (eraseKey k l).length + 1 = l.length := by
  induction l with
  | nil => simp [lookupKey] at h
  | cons p rest ih =>
    by_cases hk : p.1 = k
    · simp [eraseKey, hk]
    · simp only [lookupKey, if_neg hk] at h
      simp [eraseKey, hk, ih h]

theorem length_eraseKey_le (k : String) (l : List (String × Bytes)) :
    (eraseKey k l).length ≤ l.length := by
  induction l with
  | nil => simp [eraseKey]
  | cons p rest ih =>
    by_cases hk : p.1 = k
    · simp [eraseKey, hk]
    · simp only [eraseKey, if_neg hk, List.length_cons]
      omega

theorem lookupKey_mapSet_self (d : List (String × Bytes)) (k : String) (v : Bytes) :
    lookupKey k (mapSet d k v) = some v := by
  induction d with
  | nil => simp [mapSet, lookupKey]
  | cons p rest ih =>
    by_cases hk : p.1 = k
    · simp [mapSet, hk, lookupKey]
    · simp [mapSet, hk, lookupKey, ih]

theorem lookupKey_mapSet_ne (d : List (String × Bytes)) (k k' : String) (v : Bytes)
    (h : k' ≠ k) : lookupKey k' (mapSet d k v) = lookupKey k' d := by
  have hkk : ¬ (k = k') := fun he => h he.symm
  induction d with
  | nil => simp [mapSet, lookupKey, hkk]
  | cons p rest ih =>
    by_cases hk : p.1 = k
    · have hpk : ¬ (p.1 = k') := by rw [hk]; exact hkk
      simp only [mapSet, if_pos hk, lookupKey, if_neg hkk, if_neg hpk]
    · simp only [mapSet, if_neg hk, lookupKey]
      by_cases hk' : p.1 = k'
      · simp [hk']
      · simp [hk', ih]

theorem lookupKey_mapDel_self (d : List (String × Bytes)) (k : String) :
    lookupKey k (mapDel d k) = none := by
  induction d with
  | nil => rfl
  | cons p rest ih =>
    by_cases hk : p.1 = k
    · simpa [mapDel, hk] using ih
    · simp [mapDel, hk, lookupKey, ih]

theorem lookupKey_mapDel_ne (d : List (String × Bytes)) (k k' : String)
    (h : k' ≠ k) : lookupKey k' (mapDel d k) = lookupKey k' d := by
  induction d with
  | nil => rfl
  | cons p rest ih =>
    by_cases hk : p.1 = k
    · have hpk : ¬ (p.1 = k') := by
        rw [hk]
        exact fun he => h he.symm
      rw [show lookupKey k' (p :: rest) = lookupKey k' rest by
        simp only [lookupKey, if_neg hpk]]
      simpa [mapDel, hk] using ih
    · simp only [mapDel, if_neg hk, lookupKey]
      by_cases hk' : p.1 = k'
      · simp [hk']
      · simp [hk', ih]

theorem lookupKey_append_single_ne (k : String) (l : List (String × Bytes))
    (p : String × Bytes) (h : k ≠ p.1) :
    lookupKey k (l ++ [p]) = lookupKey k l := by
  have hp : ¬ (p.1 = k) := fun he => h he.symm
  induction l with
  | nil => simp [lookupKey, hp]
  | cons q rest ih =>
    by_cases hq : q.1 = k
    · simp [lookupKey, hq]
    · simp [lookupKey, hq, ih]

theorem mem_keys_dropLast_or_last (l : List (String × Bytes)) (kL : String)
    (vL : Bytes) (h : l.getLast? = some (kL, vL)) (k : String)
    (hk : k ∈ l.map Prod.fst) : k ∈ l.dropLast.map Prod.fst ∨ k = kL := by
  induction l with
  | nil => simp at hk
  | cons p rest ih =>
    cases rest with
    | nil =>
      simp only [List.getLast?_singleton, Option.some_inj] at h
      simp only [List.map_cons, List.map_nil, List.mem_singleton] at hk
      right
      rw [hk, h]
    | cons q rest' =>
      rw [List.getLast?_cons_cons] at h
      simp only [List.map_cons, List.mem_cons] at hk
      rcases hk with hk | hk
      · left
        simp [List.dropLast, hk]
      · rcases ih h (by simpa using hk) with hm | hm
        · left
          simp only [List.dropLast_cons₂, List.map_cons, List.mem_cons]
          right
          exact hm
        · right
          exact hm

/-! ## Eviction-loop lemmas -/

theorem evictLoopAux_stop (ops : StoreOps σ) (cap : Int) (fuel : Nat)
    (entries : List (String × Bytes)) (st : σ)
    (h : ¬ ((entries.length : Int) > cap)) :
    evictLoopAux ops cap fuel entries st = some (Except.ok (), entries, st) := by
  rw [evictLoopAux, if_neg h]

theorem evictLoopAux_bound (ops : StoreOps σ) (cap : Int) (fuel : Nat)
    (entries : List (String × Bytes)) (st : σ) (r : Except Err Unit)
    (entries' : List (String × Bytes)) (st' : σ)
    (hlen : (entries.length : Int) ≤ cap + 1)
    (h : evictLoopAux ops cap fuel entries st = some (r, entries', st')) :
    (entries'.length : Int) ≤ cap := by
  rw [evictLoopAux] at h
  by_cases hgt : (entries.length : Int) > cap
  · rw [if_pos hgt] at h
    have hlen' : (entries.length : Int) = cap + 1 := by omega
    match hlast : entries.getLast? with
    | none =>
      simp only [hlast] at h
      exact Option.noConfusion h
    | some (kL, vL) =>
      simp only [hlast] at h
      have hne : entries ≠ [] := by
        intro hnil
        rw [hnil] at hlast
        simp at hlast
      have hdrop : ((entries.dropLast.length : Int)) = cap := by
        rw [List.length_dropLast]
        have : 1 ≤ entries.length := List.length_pos.mpr hne
        omega
      match hdel : ops.del st kL with
      | (Except.error e, st₁) =>
        simp only [hdel] at h
        simp only [Option.some_inj, Prod.mk.injEq] at h
        rw [← h.2.1, hdrop]
      | (Except.ok u, st₁) =>
        simp only [hdel] at h
        match fuel with
        | 0 => exact Option.noConfusion h
        | fuel' + 1 =>
          have h2 : evictLoopAux ops cap fuel' entries.dropLast st₁
              = some (r, entries', st') := h
          rw [evictLoopAux_stop ops cap fuel' entries.dropLast st₁
            (by rw [hdrop]; omega)] at h2
          simp only [Option.some_inj, Prod.mk.injEq] at h2
          rw [← h2.2.1, hdrop]
  · rw [if_neg hgt] at h
    simp only [Option.some_inj, Prod.mk.injEq] at h
    rw [← h.2.1]
    omega

theorem evictLoopAux_ok_bound (ops : StoreOps σ) (cap : Int) (fuel : Nat)
    (entries : List (String × Bytes)) (st : σ)
    (entries' : List (String × Bytes)) (st' : σ)
    (h : evictLoopAux ops cap fuel entries st = some (Except.ok (), entries', st')) :
    (entries'.length : Int) ≤ cap := by
  induction fuel generalizing entries st with
  | zero =>
    rw [evictLoopAux] at h
    by_cases hgt : (entries.length : Int) > cap
    · rw [if_pos hgt] at h
      match hlast : entries.getLast? with
      | none =>
        simp only [hlast] at h
        exact Option.noConfusion h
      | some (kL, vL) =>
        simp only [hlast] at h
        match hdel : ops.del st kL with
        | (Except.error e, st₁) =>
          simp only [hdel] at h
          simp at h
        | (Except.ok u, st₁) =>
          simp only [hdel] at h
          exact Option.noConfusion h
    · rw [if_neg hgt] at h
      simp only [Option.some_inj, Prod.mk.injEq] at h
      rw [← h.2.1]
      omega
  | succ fuel' ih =>
    rw [evictLoopAux] at h
    by_cases hgt : (entries.length : Int) > cap
    · rw [if_pos hgt] at h
      match hlast : entries.getLast? with
      | none =>
        simp only [hlast] at h
        exact Option.noConfusion h
      | some (kL, vL) =>
        simp only [hlast] at h
        match hdel : ops.del st kL with
        | (Except.error e, st₁) =>
          simp only [hdel] at h
          simp at h
        | (Except.ok u, st₁) =>
          simp only [hdel] at h
          exact ih entries.dropLast st₁ h
    · rw [if_neg hgt] at h
      simp only [Option.some_inj, Prod.mk.injEq] at h
      rw [← h.2.1]
      omega

theorem evictLoopAux_one_step (ops : StoreOps σ) (cap : Int) (fuel : Nat)
    (entries : List (String × Bytes)) (st st₁ : σ) (kL : String) (vL : Bytes)
    (hlen : (entries.length : Int) = cap + 1)
    (hlast : entries.getLast? = some (kL, vL))
    (hdel : ops.del st kL = (Except.ok (), st₁)) :
    evictLoopAux ops cap (fuel + 1) entries st
      = some (Except.ok (), entries.dropLast, st₁) := by
  have hne : entries ≠ [] := by
    intro hnil
    rw [hnil] at hlast
    simp at hlast
  have hpos : 1 ≤ entries.length := List.length_pos.mpr hne
  rw [evictLoopAux, if_pos (by omega)]
  simp only [hlast, hdel]
  exact evictLoopAux_stop ops cap fuel entries.dropLast st₁
    (by rw [List.length_dropLast]; omega)

theorem evictLoopAux_error_step (ops : StoreOps σ) (cap : Int) (fuel : Nat)
    (entries : List (String × Bytes)) (st st₁ : σ) (kL : String) (vL : Bytes)
    (e : Err)
    (hgt : (entries.length : Int) > cap)
    (hlast : entries.getLast? = some (kL, vL))
    (hdel : ops.del st kL = (Except.error e, st₁)) :
    evictLoopAux ops cap fuel entries st
      = some (Except.error ("failed to delete from storage: " ++ e),
          entries.dropLast, st₁) := by
  rw [evictLoopAux, if_pos hgt]
  simp only [hlast, hdel]

theorem evictLoopAux_mem_absent_preserved (cap : Int) (fuel : Nat)
    (entries : List (String × Bytes)) (st : MemoryStorage)
    (r : Except Err Unit) (entries' : List (String × Bytes))
    (st' : MemoryStorage) (k : String)
    (h : evictLoopAux (memOps none) cap fuel entries st = some (r, entries', st'))
    (habs : lookupKey k st.data = none) : lookupKey k st'.data = none := by
  induction fuel generalizing entries st with
  | zero =>
    rw [evictLoopAux] at h
    by_cases hgt : (entries.length : Int) > cap
    · rw [if_pos hgt] at h
      match hlast : entries.getLast? with
      | none =>
        simp only [hlast] at h
        exact Option.noConfusion h
      | some (kL, vL) =>
        simp only [hlast, memOps, MemoryStorage.Delete] at h
        exact Option.noConfusion h
    · rw [if_neg hgt] at h
      simp only [Option.some_inj, Prod.mk.injEq] at h
      rw [← h.2.2]
      exact habs
  | succ fuel' ih =>
    rw [evictLoopAux] at h
    by_cases hgt : (entries.length : Int) > cap
    · rw [if_pos hgt] at h
      match hlast : entries.getLast? with
      | none =>
        simp only [hlast] at h
        exact Option.noConfusion h
      | some (kL, vL) =>
        simp only [hlast, memOps, MemoryStorage.Delete] at h
        refine ih entries.dropLast ⟨mapDel st.data kL⟩ h ?_
        by_cases hk : k = kL
        · rw [hk]
          exact lookupKey_mapDel_self st.data kL
        · rw [lookupKey_mapDel_ne st.data kL k hk]
          exact habs
    · rw [if_neg hgt] at h
      simp only [Option.some_inj, Prod.mk.injEq] at h
      rw [← h.2.2]
      exact habs

theorem evictLoopAux_full_evict_deletes (cap : Int) (fuel : Nat)
    (entries : List (String × Bytes)) (st : MemoryStorage)
    (st' : MemoryStorage) (k : String)
    (h : evictLoopAux (memOps none) cap fuel entries st
      = some (Except.ok (), [], st'))
    (hk : k ∈ entries.map Prod.fst) : lookupKey k st'.data = none := by
  induction fuel generalizing entries st with
  | zero =>
    rw [evictLoopAux] at h
    by_cases hgt : (entries.length : Int) > cap
    · rw [if_pos hgt] at h
      match hlast : entries.getLast? with
      | none =>
        simp only [hlast] at h
        exact Option.noConfusion h
      | some (kL, vL) =>
        simp only [hlast, memOps, MemoryStorage.Delete] at h
        exact Option.noConfusion h
    · rw [if_neg hgt] at h
      simp only [Option.some_inj, Prod.mk.injEq] at h
      rw [h.2.1] at hk
      simp at hk
  | succ fuel' ih =>
    rw [evictLoopAux] at h
    by_cases hgt : (entries.length : Int) > cap
    · rw [if_pos hgt] at h
      match hlast : entries.getLast? with
      | none =>
        simp only [hlast] at h
        exact Option.noConfusion h
      | some (kL, vL) =>
        simp only [hlast, memOps, MemoryStorage.Delete] at h
        rcases mem_keys_dropLast_or_last entries kL vL hlast k hk with hm | hm
        · exact ih entries.dropLast ⟨mapDel st.data kL⟩ h hm
        · refine evictLoopAux_mem_absent_preserved cap fuel' entries.dropLast
            ⟨mapDel st.data kL⟩ (Except.ok ()) [] st' k h ?_
          rw [hm]
          exact lookupKey_mapDel_self st.data kL
    · rw [if_neg hgt] at h
      simp only [Option.some_inj, Prod.mk.injEq] at h
      rw [h.2.1] at hk
      simp at hk

/-! ## Capacity-bound step lemmas -/

theorem removeOldest_entries_eq (ops : StoreOps σ)
    (entries : List (String × Bytes)) (st : σ) (hne : entries ≠ []) :
    (removeOldest ops entries st).2.1 = entries.dropLast := by
  rw [removeOldest]
  match hlast : entries.getLast? with
  | none =>
    rw [List.getLast?_eq_none_iff] at hlast
    exact absurd hlast hne
  | some (kL, vL) =>
    match hdel : ops.del st kL with
    | (Except.error e, st₁) => simp [hdel]
    | (Except.ok u, st₁) => simp [hdel]

theorem Get_step (ops : StoreOps σ) (c : LRUCache σ) (key : String)
    (hc : (c.entries.length : Int) ≤ c.capacity) :
    (((LRUCache.Get ops c key).2.entries.length : Int) ≤ c.capacity) ∧
      (LRUCache.Get ops c key).2.capacity = c.capacity := by
  rw [LRUCache.Get]
  match hl : lookupKey key c.entries with
  | some v =>
    refine ⟨?_, rfl⟩
    have := length_eraseKey_of_lookup key c.entries v hl
    simp only [List.length_cons]
    omega
  | none =>
    match hget : ops.get c.store key with
    | (Except.error e, st') => exact ⟨hc, rfl⟩
    | (Except.ok data, st') =>
      simp only
      by_cases hgt : (((key, data) :: c.entries).length : Int) > c.capacity
      · rw [if_pos hgt]
        have hdrop := removeOldest_entries_eq ops ((key, data) :: c.entries) st'
          (by simp)
        match hro : removeOldest ops ((key, data) :: c.entries) st' with
        | (Except.error e, entries', st'') =>
          rw [hro] at hdrop
          refine ⟨?_, rfl⟩
          show ((entries'.length : Int)) ≤ c.capacity
          have hd : entries' = ((key, data) :: c.entries).dropLast := hdrop
          rw [hd]
          simp only [List.length_dropLast, List.length_cons]
          omega
        | (Except.ok u, entries', st'') =>
          rw [hro] at hdrop
          refine ⟨?_, rfl⟩
          show ((entries'.length : Int)) ≤ c.capacity
          have hd : entries' = ((key, data) :: c.entries).dropLast := hdrop
          rw [hd]
          simp only [List.length_dropLast, List.length_cons]
          omega
      · rw [if_neg hgt]
        refine ⟨?_, rfl⟩
        show ((((key, data) :: c.entries).length : Int)) ≤ c.capacity
        omega

theorem Set_step (ops : StoreOps σ) (c : LRUCache σ) (key : String)
    (value : Bytes) (r : Except Err Unit) (c' : LRUCache σ)
    (hc : (c.entries.length : Int) ≤ c.capacity)
    (h : LRUCache.Set ops c key value = some (r, c')) :
    ((c'.entries.length : Int) ≤ c.capacity) ∧ c'.capacity = c.capacity := by
  rw [LRUCache.Set] at h
  match hset : ops.set c.store key value with
  | (Except.error e, st') =>
    simp only [hset, Option.some_inj, Prod.mk.injEq] at h
    rw [← h.2]
    exact ⟨hc, rfl⟩
  | (Except.ok u, st') =>
    simp only [hset] at h
    match hl : lookupKey key c.entries with
    | some v =>
      simp only [hl, Option.some_inj, Prod.mk.injEq] at h
      rw [← h.2]
      have := length_eraseKey_of_lookup key c.entries v hl
      refine ⟨?_, rfl⟩
      simp only [List.length_cons]
      omega
    | none =>
      simp only [hl] at h
      match hev : evictLoop ops c.capacity ((key, value) :: c.entries) st' with
      | none =>
        simp only [hev] at h
        exact Option.noConfusion h
      | some (r₁, entries', st'') =>
        simp only [hev, Option.some_inj, Prod.mk.injEq] at h
        rw [← h.2]
        refine ⟨?_, rfl⟩
        rw [evictLoop] at hev
        exact evictLoopAux_bound ops c.capacity _ _ st' r₁ entries' st''
          (by simp only [List.length_cons]; omega) hev

theorem Delete_step (ops : StoreOps σ) (c : LRUCache σ) (key : String)
    (hc : (c.entries.length : Int) ≤ c.capacity) :
    (((LRUCache.Delete ops c key).2.entries.length : Int) ≤ c.capacity) ∧
      (LRUCache.Delete ops c key).2.capacity = c.capacity := by
  rw [LRUCache.Delete]
  refine ⟨?_, rfl⟩
  have := length_eraseKey_le key c.entries
  simp only
  omega

theorem runOps_inv (ops : StoreOps σ) (l : List CacheOp) (c c' : LRUCache σ)
    (hc : (c.entries.length : Int) ≤ c.capacity)
    (h : runOps ops c l = some c') :
    ((c'.entries.length : Int) ≤ c'.capacity) ∧ c'.capacity = c.capacity := by
  induction l generalizing c with
  | nil =>
    rw [runOps, Option.some_inj] at h
    rw [← h]
    exact ⟨hc, rfl⟩
  | cons op rest ih =>
    rw [runOps] at h
    match hop : runOp ops c op with
    | none =>
      simp only [hop] at h
      exact Option.noConfusion h
    | some c₁ =>
      simp only [hop] at h
      have hstep : ((c₁.entries.length : Int) ≤ c₁.capacity) ∧
          c₁.capacity = c.capacity := by
        match op with
        | CacheOp.get k =>
          rw [runOp, Option.some_inj] at hop
          obtain ⟨h1, h2⟩ := Get_step ops c k hc
          rw [hop] at h1 h2
          exact ⟨h2 ▸ h1, h2⟩
        | CacheOp.set k v =>
          rw [runOp, Option.map_eq_some'] at hop
          obtain ⟨⟨r, c₁'⟩, hset, heq⟩ := hop
          obtain ⟨h1, h2⟩ := Set_step ops c k v r c₁' hc hset
          simp only at heq
          rw [heq] at h1 h2
          exact ⟨h2 ▸ h1, h2⟩
        | CacheOp.del k =>
          rw [runOp, Option.some_inj] at hop
          obtain ⟨h1, h2⟩ := Delete_step ops c k hc
          rw [hop] at h1 h2
          exact ⟨h2 ▸ h1, h2⟩
      obtain ⟨h1, h2⟩ := ih c₁ hstep.1 h
      exact ⟨h1, h2.trans hstep.2⟩

/-! ## The distinct-key `Set` sequence invariant (memory store) -/

theorem mem_keys_of_take_reverse (done : List (String × Bytes)) (n : Nat)
    (k : String) (h : k ∈ (done.reverse.take n).map Prod.fst) :
    k ∈ done.map Prod.fst := by
  rcases List.mem_map.mp h with ⟨p, hp, rfl⟩
  exact List.mem_map.mpr ⟨p, List.mem_reverse.mp (List.mem_of_mem_take hp), rfl⟩

theorem nodup_keys_take_reverse (done : List (String × Bytes)) (n : Nat)
    (h : (done.map Prod.fst).Nodup) :
    ((done.reverse.take n).map Prod.fst).Nodup := by
  rw [List.map_take, List.map_reverse]
  exact List.Nodup.sublist (List.take_sublist n _) (List.nodup_reverse.mpr h)

theorem getLast?_cons_ne_nil (a : String × Bytes) (l : List (String × Bytes))
    (h : l ≠ []) : (a :: l).getLast? = l.getLast? := by
  cases l with
  | nil => exact absurd rfl h
  | cons b t => exact List.getLast?_cons_cons

theorem not_mem_keys_dropLast (l : List (String × Bytes)) (hne : l ≠ [])
    (hnd : (l.map Prod.fst).Nodup) :
    (l.getLast hne).1 ∉ l.dropLast.map Prod.fst := by
  intro hmem
  have hsplit : l.dropLast ++ [l.getLast hne] = l :=
    List.dropLast_concat_getLast hne
  rw [← hsplit, List.map_append] at hnd
  rcases List.nodup_append.mp hnd with ⟨-, -, hdisj⟩
  exact hdisj hmem (by simp)

theorem setAll_mem_inv (C' : Nat) :
    ∀ (pairs done : List (String × Bytes)) (st : MemoryStorage),
    ((done ++ pairs).map Prod.fst).Nodup →
    (∀ k, lookupKey k st.data = lookupKey k (done.reverse.take (C' + 1))) →
    ∃ st' : MemoryStorage,
      setAll (memOps none)
          ⟨((C' + 1 : Nat) : Int), done.reverse.take (C' + 1), st⟩ pairs
        = some ⟨((C' + 1 : Nat) : Int), (done ++ pairs).reverse.take (C' + 1), st'⟩ ∧
      ∀ k, lookupKey k st'.data
        = lookupKey k ((done ++ pairs).reverse.take (C' + 1)) := by
  intro pairs
  induction pairs with
  | nil =>
    intro done st hnd hst
    refine ⟨st, ?_, ?_⟩
    · rw [setAll, List.append_nil]
    · simpa using hst
  | cons p rest ih =>
    obtain ⟨k, v⟩ := p
    intro done st hnd hst
    -- the fresh key is absent from everything processed so far
    have hkdone : k ∉ done.map Prod.fst := by
      intro hmem
      rw [List.map_append] at hnd
      rcases List.nodup_append.mp hnd with ⟨-, -, hdisj⟩
      exact hdisj hmem (by simp)
    have hdonend : (done.map Prod.fst).Nodup := by
      rw [List.map_append] at hnd
      exact (List.nodup_append.mp hnd).1
    have hklk : lookupKey k (done.reverse.take (C' + 1)) = none :=
      lookupKey_eq_none _ _
        (fun hmem => hkdone (mem_keys_of_take_reverse done (C' + 1) k hmem))
    have hset1 : (memOps none).set st k v
        = (Except.ok (), ⟨mapSet st.data k v⟩) := rfl
    have hnd' : ((done ++ [(k, v)]) ++ rest).map Prod.fst = (done ++ (k, v) :: rest).map Prod.fst := by
      rw [List.append_assoc, List.singleton_append]
    have hrevcons : (done ++ [(k, v)]).reverse = (k, v) :: done.reverse := by
      rw [List.reverse_append]
      rfl
    by_cases hlt : done.length ≤ C'
    · -- still under capacity: no eviction
      have htake_full : done.reverse.take (C' + 1) = done.reverse :=
        List.take_of_length_le (by rw [List.length_reverse]; omega)
      have htake_full' : done.reverse.take C' = done.reverse :=
        List.take_of_length_le (by rw [List.length_reverse]; omega)
      have hstop : ¬ ((((k, v) :: done.reverse.take (C' + 1)).length : Int)
          > ((C' + 1 : Nat) : Int)) := by
        rw [htake_full]
        simp only [List.length_cons, List.length_reverse]
        push_cast
        omega
      have heval : evictLoop (memOps none) ((C' + 1 : Nat) : Int)
          ((k, v) :: done.reverse.take (C' + 1)) ⟨mapSet st.data k v⟩
          = some (Except.ok (), (k, v) :: done.reverse.take (C' + 1),
              ⟨mapSet st.data k v⟩) := by
        rw [evictLoop]
        exact evictLoopAux_stop _ _ _ _ _ hstop
      have hSet : LRUCache.Set (memOps none)
          ⟨((C' + 1 : Nat) : Int), done.reverse.take (C' + 1), st⟩ k v
          = some (Except.ok (),
              ⟨((C' + 1 : Nat) : Int), (done ++ [(k, v)]).reverse.take (C' + 1),
                ⟨mapSet st.data k v⟩⟩) := by
        rw [LRUCache.Set]
        simp only [hset1, hklk, heval]
        rw [hrevcons, List.take_succ_cons, htake_full', htake_full]
      have hstore' : ∀ k', lookupKey k' (mapSet st.data k v)
          = lookupKey k' ((done ++ [(k, v)]).reverse.take (C' + 1)) := by
        intro k'
        rw [hrevcons, List.take_succ_cons, htake_full']
        by_cases hk'k : k = k'
        · rw [← hk'k, lookupKey_mapSet_self]
          simp [lookupKey]
        · rw [lookupKey_mapSet_ne st.data k k' v (fun he => hk'k he.symm)]
          rw [show lookupKey k' ((k, v) :: done.reverse)
              = lookupKey k' done.reverse by simp only [lookupKey, if_neg hk'k]]
          rw [hst k', htake_full]
      obtain ⟨st', hrun, hst'⟩ := ih (done ++ [(k, v)]) ⟨mapSet st.data k v⟩
        (by rw [hnd']; exact hnd) hstore'
      refine ⟨st', ?_, ?_⟩
      · rw [setAll]
        simp only [hSet]
        rw [hrun]
        rw [show (done ++ [(k, v)]) ++ rest = done ++ (k, v) :: rest by
          rw [List.append_assoc, List.singleton_append]]
      · rw [show (done ++ [(k, v)]) ++ rest = done ++ (k, v) :: rest by
          rw [List.append_assoc, List.singleton_append]] at hst'
        exact hst'
    · -- at capacity: one eviction of the back element
      have hClen : C' + 1 ≤ done.length := by omega
      have hlen_entries : (done.reverse.take (C' + 1)).length = C' + 1 := by
        rw [List.length_take, List.length_reverse]
        omega
      have hne : done.reverse.take (C' + 1) ≠ [] := by
        intro hnil
        rw [hnil] at hlen_entries
        simp at hlen_entries
      have hplast : (done.reverse.take (C' + 1)).getLast? =
          some ((done.reverse.take (C' + 1)).getLast hne) :=
        List.getLast?_eq_getLast _ hne
      have hlast1 : ((k, v) :: done.reverse.take (C' + 1)).getLast? =
          some ((done.reverse.take (C' + 1)).getLast hne) := by
        rw [getLast?_cons_ne_nil _ _ hne]
        exact hplast
      have hkLdone : ((done.reverse.take (C' + 1)).getLast hne).1
          ∈ done.map Prod.fst :=
        mem_keys_of_take_reverse done (C' + 1) _
          (List.mem_map.mpr ⟨_, List.getLast_mem hne, rfl⟩)
      have hkkL : k ≠ ((done.reverse.take (C' + 1)).getLast hne).1 := by
        intro he
        rw [← he] at hkLdone
        exact hkdone hkLdone
      have hndkeys : ((done.reverse.take (C' + 1)).map Prod.fst).Nodup :=
        nodup_keys_take_reverse done (C' + 1) hdonend
      have hkLdrop : ((done.reverse.take (C' + 1)).getLast hne).1
          ∉ (done.reverse.take (C' + 1)).dropLast.map Prod.fst :=
        not_mem_keys_dropLast _ hne hndkeys
      have hdropLast_take : (done.reverse.take (C' + 1)).dropLast
          = done.reverse.take C' := by
        rw [List.dropLast_eq_take, hlen_entries, List.take_take]
        simp only [Nat.add_sub_cancel]
        rw [Nat.min_eq_left (by omega)]
      have hsplit : (done.reverse.take (C' + 1)).dropLast
            ++ [(done.reverse.take (C' + 1)).getLast hne]
          = done.reverse.take (C' + 1) :=
        List.dropLast_concat_getLast hne
      have hdel : (memOps none).del ⟨mapSet st.data k v⟩
          ((done.reverse.take (C' + 1)).getLast hne).1
          = (Except.ok (), ⟨mapDel (mapSet st.data k v)
              ((done.reverse.take (C' + 1)).getLast hne).1⟩) := rfl
      have hlen1 : ((((k, v) :: done.reverse.take (C' + 1)).length : Int))
          = ((C' + 1 : Nat) : Int) + 1 := by
        simp only [List.length_cons, hlen_entries]
        push_cast
        omega
      have heval : evictLoop (memOps none) ((C' + 1 : Nat) : Int)
          ((k, v) :: done.reverse.take (C' + 1)) ⟨mapSet st.data k v⟩
          = some (Except.ok (), ((k, v) :: done.reverse.take (C' + 1)).dropLast,
              ⟨mapDel (mapSet st.data k v)
                ((done.reverse.take (C' + 1)).getLast hne).1⟩) := by
        rw [evictLoop]
        exact evictLoopAux_one_step (memOps none) _ _ _ _ _ _ _ hlen1 hlast1 hdel
      have hdropcons : ((k, v) :: done.reverse.take (C' + 1)).dropLast
          = (k, v) :: done.reverse.take C' := by
        rw [List.dropLast_cons_of_ne_nil hne, hdropLast_take]
      have hnewtake : (done ++ [(k, v)]).reverse.take (C' + 1)
          = (k, v) :: done.reverse.take C' := by
        rw [hrevcons, List.take_succ_cons]
      have hSet : LRUCache.Set (memOps none)
          ⟨((C' + 1 : Nat) : Int), done.reverse.take (C' + 1), st⟩ k v
          = some (Except.ok (),
              ⟨((C' + 1 : Nat) : Int), (done ++ [(k, v)]).reverse.take (C' + 1),
                ⟨mapDel (mapSet st.data k v)
                  ((done.reverse.take (C' + 1)).getLast hne).1⟩⟩) := by
        rw [LRUCache.Set]
        simp only [hset1, hklk, heval]
        rw [hdropcons, hnewtake]
      have hstore' : ∀ k', lookupKey k' (mapDel (mapSet st.data k v)
            ((done.reverse.take (C' + 1)).getLast hne).1)
          = lookupKey k' ((done ++ [(k, v)]).reverse.take (C' + 1)) := by
        intro k'
        rw [hnewtake]
        by_cases hk'kL : k' = ((done.reverse.take (C' + 1)).getLast hne).1
        · rw [hk'kL, lookupKey_mapDel_self]
          have hhead : ¬ (k = ((done.reverse.take (C' + 1)).getLast hne).1) := hkkL
          rw [show lookupKey ((done.reverse.take (C' + 1)).getLast hne).1
                ((k, v) :: done.reverse.take C')
              = lookupKey ((done.reverse.take (C' + 1)).getLast hne).1
                (done.reverse.take C') by
            simp only [lookupKey, if_neg hhead]]
          rw [← hdropLast_take]
          exact (lookupKey_eq_none _ _ hkLdrop).symm
        · rw [lookupKey_mapDel_ne _ _ _ hk'kL]
          by_cases hk'k : k = k'
          · rw [← hk'k, lookupKey_mapSet_self]
            simp [lookupKey]
          · rw [lookupKey_mapSet_ne st.data k k' v (fun he => hk'k he.symm)]
            rw [show lookupKey k' ((k, v) :: done.reverse.take C')
                = lookupKey k' (done.reverse.take C') by
              simp only [lookupKey, if_neg hk'k]]
            rw [hst k']
            rw [← hdropLast_take]
            conv =>
              lhs
              rw [← hsplit]
            exact lookupKey_append_single_ne k' _ _ hk'kL
      obtain ⟨st', hrun, hst'⟩ := ih (done ++ [(k, v)])
        ⟨mapDel (mapSet st.data k v)
          ((done.reverse.take (C' + 1)).getLast hne).1⟩
        (by rw [hnd']; exact hnd) hstore'
      refine ⟨st', ?_, ?_⟩
      · rw [setAll]
        simp only [hSet]
        rw [hrun]
        rw [show (done ++ [(k, v)]) ++ rest = done ++ (k, v) :: rest by
          rw [List.append_assoc, List.singleton_append]]
      · rw [show (done ++ [(k, v)]) ++ rest = done ++ (k, v) :: rest by
          rw [List.append_assoc, List.singleton_append]] at hst'
        exact hst'

/-! ## Claim theorems -/

/-- Claim C1: for a capacity `C > 0` and a sequence of `N > C` successful
`Set` calls with pairwise-distinct keys on a fresh cache over an empty
memory store, the recency index afterwards is exactly the `C` most recently
inserted pairs (most recent first), and a store `Get` on every evicted key
(the first `N - C` keys) returns not-found. -/
theorem lru_distinct_sets_eviction (C : Nat) (hC : 0 < C)
    (pairs : List (String × Bytes))
    (hnd : (pairs.map Prod.fst).Nodup)
    (hN : C < pairs.length)
    (c' : LRUCache MemoryStorage)
    (h : setAll (memOps none) (NewLRUCache (C : Int) ⟨[]⟩) pairs = some c') :
    c'.entries = pairs.reverse.take C ∧
    ∀ k ∈ (pairs.map Prod.fst).take (pairs.length - C),
      (MemoryStorage.Get none c'.store k).1 = Except.error errNotExist := by
  obtain ⟨C', rfl⟩ : ∃ C'', C = C'' + 1 := ⟨C - 1, by omega⟩
  obtain ⟨st', hrun, hst'⟩ := setAll_mem_inv C' pairs [] ⟨[]⟩
    (by simpa using hnd) (fun k => rfl)
  rw [show (NewLRUCache ((C' + 1 : Nat) : Int) (⟨[]⟩ : MemoryStorage))
      = ⟨((C' + 1 : Nat) : Int), ([] : List (String × Bytes)).reverse.take (C' + 1),
          ⟨[]⟩⟩ from rfl] at h
  rw [hrun, Option.some_inj] at h
  have hent : c'.entries = pairs.reverse.take (C' + 1) := by
    rw [← h]
    simp
  have hev : ∀ k ∈ (pairs.map Prod.fst).take (pairs.length - (C' + 1)),
      lookupKey k c'.store.data = none := by
    intro k hk
    have hstore : c'.store = st' := by
      rw [← h]
    rw [hstore]
    rw [hst' k]
    simp only [List.nil_append]
    refine lookupKey_eq_none _ _ ?_
    intro hmem
    rw [List.map_take, List.map_reverse] at hmem
    rw [List.take_reverse] at hmem
    rw [List.mem_reverse] at hmem
    rw [List.length_map] at hmem
    exact List.disjoint_take_drop hnd (Nat.le_refl _) hk hmem
  refine ⟨hent, ?_⟩
  intro k hk
  have hnone := hev k hk
  rw [MemoryStorage.Get]
  simp only [hnone]

/-- Claim C1 witness: capacity 1, inserting `a` then `b`; the index keeps
exactly `b` and the store `Get` on the evicted `a` returns not-found. -/
theorem lru_distinct_sets_eviction_witness :
    (⟨(1 : Nat), [("b", [2])], ⟨[("b", [2])]⟩⟩ : LRUCache MemoryStorage).entries
        = ([("a", [1]), ("b", [2])] : List (String × Bytes)).reverse.take 1 ∧
      ∀ k ∈ (([("a", [1]), ("b", [2])] : List (String × Bytes)).map
            Prod.fst).take
          (([("a", [1]), ("b", [2])] : List (String × Bytes)).length - 1),
        (MemoryStorage.Get none
          (⟨(1 : Nat), [("b", [2])],
            ⟨[("b", [2])]⟩⟩ : LRUCache MemoryStorage).store k).1
          = Except.error errNotExist :=
  lru_distinct_sets_eviction 1 (by decide) [("a", [1]), ("b", [2])]
    (by decide) (by decide) ⟨(1 : Nat), [("b", [2])], ⟨[("b", [2])]⟩⟩ rfl

/-- Claim C2 counterexample: with configured capacity `-1`, the one-element
sequence `[Delete "k"]` on a fresh cache over an empty memory store
completes (the underlying store delete succeeds), yet the index length 0
exceeds the capacity `-1`. -/
theorem index_capacity_bound_counterexample :
    (runOps (memOps none) (NewLRUCache (-1) ⟨[]⟩) [CacheOp.del "k"]).map
        (fun c => (c.entries.length : Int)) = some 0 ∧
      (LRUCache.Delete (memOps none) (NewLRUCache (-1) ⟨[]⟩) "k").1
        = Except.ok () ∧
      ¬ ((0 : Int) ≤ -1) :=
  ⟨rfl, rfl, by decide⟩

/-- Claim C2 (amended to non-negative capacities): for every configured
capacity `cap ≥ 0` and every sequence of public operations on a fresh
cache, whenever the run completes the index length never exceeds `cap`. -/
theorem index_capacity_bound (σ : Type) (ops : StoreOps σ) (cap : Int)
    (hcap : 0 ≤ cap) (st : σ) (l : List CacheOp) (c' : LRUCache σ)
    (h : runOps ops (NewLRUCache cap st) l = some c') :
    (c'.entries.length : Int) ≤ cap := by
  have hinv := runOps_inv ops l (NewLRUCache cap st) c' (by simpa using hcap) h
  have h2 : c'.capacity = cap := hinv.2
  rw [← h2]
  exact hinv.1

/-- Claim C2 witness: capacity 2, one `Set`; the resulting index has one
entry, within the bound. -/
theorem index_capacity_bound_witness :
    (((⟨(2 : Int), [("a", [1])],
        ⟨[("a", [1])]⟩⟩ : LRUCache MemoryStorage).entries.length : Int)) ≤ 2 :=
  index_capacity_bound MemoryStorage (memOps none) 2 (by decide) ⟨[]⟩
    [CacheOp.set "a" [1]] ⟨(2 : Int), [("a", [1])], ⟨[("a", [1])]⟩⟩ rfl

/-- Claim C3 counterexample: capacity 0, `Set "k" [1]` on a fresh cache over
an empty memory store succeeds and leaves the index empty, but the backing
store does NOT still hold the value: its `Get "k"` returns not-found
(eviction deleted the just-written key from the store as well). -/
theorem capacity_zero_set_counterexample :
    (LRUCache.Set (memOps none) (NewLRUCache 0 ⟨[]⟩) "k" [1]).map
        (fun r => (r.1, r.2.entries, (MemoryStorage.Get none r.2.store "k").1))
      = some (Except.ok (), [], Except.error errNotExist) ∧
      (Except.error errNotExist : Except Err Bytes) ≠ Except.ok [1] :=
  ⟨rfl, fun he => Except.noConfusion he⟩

/-- Claim C3 (amended): with capacity ≤ 0 and the (invariably) empty index,
every `Set` that returns successfully leaves the index empty, and the
just-written key has been deleted from the backing store by the immediate
eviction, so a store `Get` on it returns not-found. -/
theorem capacity_nonpos_set (c : LRUCache MemoryStorage) (key : String)
    (value : Bytes) (c' : LRUCache MemoryStorage)
    (hcap : c.capacity ≤ 0) (hempty : c.entries = [])
    (h : LRUCache.Set (memOps none) c key value = some (Except.ok (), c')) :
    c'.entries = [] ∧
      (MemoryStorage.Get none c'.store key).1 = Except.error errNotExist := by
  have hlk : lookupKey key c.entries = none := by rw [hempty]; rfl
  have hms : (memOps none).set c.store key value
      = (Except.ok (), ⟨mapSet c.store.data key value⟩) := rfl
  rw [LRUCache.Set] at h
  simp only [hms, hlk] at h
  match hev : evictLoop (memOps none) c.capacity ((key, value) :: c.entries)
      ⟨mapSet c.store.data key value⟩ with
  | none =>
    simp only [hev] at h
    exact Option.noConfusion h
  | some (r, e', s') =>
    simp only [hev, Option.some_inj, Prod.mk.injEq] at h
    obtain ⟨hr, hc'⟩ := h
    rw [evictLoop] at hev
    rw [hr] at hev
    have hb := evictLoopAux_ok_bound (memOps none) c.capacity _ _ _ _ _ hev
    have he' : e' = [] := List.eq_nil_of_length_eq_zero (by omega)
    rw [he'] at hev
    have hnone := evictLoopAux_full_evict_deletes c.capacity _ _ _ _ key hev
      (by simp)
    rw [← hc']
    refine ⟨he', ?_⟩
    show (MemoryStorage.Get none s' key).1 = Except.error errNotExist
    rw [MemoryStorage.Get]
    simp only [hnone]

/-- Claim C3 witness: capacity 0, `Set "k" [1]` on the fresh cache; the
index stays empty and the store `Get` returns not-found. -/
theorem capacity_nonpos_set_witness :
    (⟨0, [], ⟨[]⟩⟩ : LRUCache MemoryStorage).entries = [] ∧
      (MemoryStorage.Get none
          (⟨0, [], ⟨[]⟩⟩ : LRUCache MemoryStorage).store "k").1
        = Except.error errNotExist :=
  capacity_nonpos_set (NewLRUCache 0 ⟨[]⟩) "k" [1] ⟨0, [], ⟨[]⟩⟩
    (by decide) rfl rfl

/-- Claim C4 counterexample: the code's sanitization of
`host:8080/path/../file` is NOT the claimed `host_8080_path__file`
(the slashes around `..` each become `_`, and `..` becomes `__`, giving
four underscores between `path` and `file`, not two). -/
theorem sanitize_mixed_counterexample :
    sanitizeKey "host:8080/path/../file" ≠ "host_8080_path__file" := by
  decide

/-- Claim C4 (amended): sanitization replaces `:`, `/`, `\` with `_`, then
`..` with `__`, strips leading underscores and maps the empty key to
`empty`; the mixed example therefore yields `host_8080_path____file`
(four middle underscores), and the empty key yields `empty`. -/
theorem sanitize_concrete_values :
    sanitizeKey "host:8080/path/../file" = "host_8080_path____file" ∧
      sanitizeKey "" = "empty" :=
  ⟨by decide, rfl⟩

/-- Claim C5: if the backing store's `Set` fails, `LRUCache.Set` returns
that same error and the recency index is completely unchanged (only the
store state advances). -/
theorem set_store_error_frame (σ : Type) (ops : StoreOps σ) (c : LRUCache σ)
    (key : String) (value : Bytes) (e : Err) (st' : σ)
    (h : ops.set c.store key value = (Except.error e, st')) :
    LRUCache.Set ops c key value
      = some (Except.error e, ⟨c.capacity, c.entries, st'⟩) := by
  rw [LRUCache.Set]
  simp only [h]

/-- Claim C5 witness: a store whose write fails with `disk full`; the cache
`Set` surfaces it and the index is untouched. -/
theorem set_store_error_frame_witness :
    LRUCache.Set failSetOps ⟨2, [("a", [1])], ()⟩ "k" [7]
      = some (Except.error "disk full", ⟨2, [("a", [1])], ()⟩) :=
  set_store_error_frame Unit failSetOps ⟨2, [("a", [1])], ()⟩ "k" [7]
    "disk full" () rfl

/-- Claim C6: when a fresh-key `Set` overflows the capacity and the
eviction's store delete fails with error `e`, the `Set` returns an error
whose message is exactly `failed to delete from storage: ` followed by
`e`. -/
theorem eviction_delete_error_message (σ : Type) (ops : StoreOps σ)
    (c : LRUCache σ) (key : String) (value : Bytes) (st₁ st₂ : σ)
    (kL : String) (vL : Bytes) (e : Err)
    (hset : ops.set c.store key value = (Except.ok (), st₁))
    (hfresh : lookupKey key c.entries = none)
    (hover : ((((key, value) :: c.entries).length : Int)) > c.capacity)
    (hlast : ((key, value) :: c.entries).getLast? = some (kL, vL))
    (hdel : ops.del st₁ kL = (Except.error e, st₂)) :
    LRUCache.Set ops c key value
      = some (Except.error ("failed to delete from storage: " ++ e),
          ⟨c.capacity, ((key, value) :: c.entries).dropLast, st₂⟩) := by
  rw [LRUCache.Set]
  simp only [hset, hfresh]
  rw [evictLoop]
  rw [evictLoopAux_error_step ops c.capacity _ _ st₁ st₂ kL vL e hover
    hlast hdel]

/-- Claim C6 witness: the scenario of `TestLRUCache_ErrorHandling` —
capacity 1 holding `key1`, store delete failing with `storage error`;
`Set key2` returns exactly
`failed to delete from storage: storage error`. -/
theorem eviction_delete_error_message_witness :
    LRUCache.Set failDelOps ⟨1, [("key1", [1])], ()⟩ "key2" [2]
      = some (Except.error "failed to delete from storage: storage error",
          ⟨1, [("key2", [2])], ()⟩) := by
  have h := eviction_delete_error_message Unit failDelOps
    ⟨1, [("key1", [1])], ()⟩ "key2" [2] () () "key1" [1] "storage error"
    rfl rfl (by decide) rfl rfl
  exact h

/-- Claim C7: a `Get` on a key present in the index returns the cached
bytes, records no backing-store invocation (the instrumented store state,
including its call log, is unchanged), and moves the key to the front
while leaving all other entries in order. -/
theorem get_hit_no_store_calls (σ : Type) (ops : StoreOps σ) (st : σ)
    (log : List StoreCall) (cap : Int) (entries : List (String × Bytes))
    (key : String) (v : Bytes) (h : lookupKey key entries = some v) :
    LRUCache.Get (withLog ops) ⟨cap, entries, (st, log)⟩ key
      = (Except.ok v, ⟨cap, (key, v) :: eraseKey key entries, (st, log)⟩) := by
  rw [LRUCache.Get]
  simp only [h]

/-- Claim C7 witness: a two-entry cache; `Get "b"` hits, promotes `b`,
and the store state and call log are untouched. -/
theorem get_hit_no_store_calls_witness :
    LRUCache.Get (withLog (memOps none))
        ⟨2, [("a", [1]), ("b", [2])], (⟨[]⟩, [])⟩ "b"
      = (Except.ok [2], ⟨2, [("b", [2]), ("a", [1])], (⟨[]⟩, [])⟩) := by
  have h := get_hit_no_store_calls MemoryStorage (memOps none) ⟨[]⟩ [] 2
    [("a", [1]), ("b", [2])] "b" [2] rfl
  exact h

/-- Claim C8 counterexample: the code's `Size` takes no context parameter
and cannot fail — on a one-entry store it returns `1` — whereas the
claim's reading of `Size` (modelled by `sizeWithCtxClaim`) would fail with
the context's error on a cancelled context. -/
theorem size_ignores_context_counterexample :
    MemoryStorage.Size ⟨[("k", [1])]⟩ = 1 ∧
      sizeWithCtxClaim (some "context canceled") ⟨[("k", [1])]⟩
        = Except.error "context canceled" :=
  ⟨rfl, rfl⟩

/-- Claim C8 (amended): `Get`, `Set` and `Delete` of both store variants
take the context first and, when it is already cancelled or expired, fail
immediately with the context's error without mutating the store; `Size`
takes no context and always returns the live entry count. -/
theorem store_ops_context_cancelled (e : Err) (s : MemoryStorage)
    (f : FileStorage) (key : String) (data : Bytes) :
    MemoryStorage.Get (some e) s key = (Except.error e, s) ∧
    MemoryStorage.Set (some e) s key data = (Except.error e, s) ∧
    MemoryStorage.Delete (some e) s key = (Except.error e, s) ∧
    FileStorage.Get (some e) f key = (Except.error e, f) ∧
    FileStorage.Set (some e) f key data = (Except.error e, f) ∧
    FileStorage.Delete (some e) f key = (Except.error e, f) ∧
    MemoryStorage.Size s = s.data.length ∧
    FileStorage.Size f = f.size :=
  ⟨rfl, rfl, rfl, rfl, rfl, rfl, rfl, rfl⟩

/-- Claim C9: a `FileStorage.Set` succeeds and bumps the `Size` counter
exactly when the sanitized key's file did not previously exist; a
`Delete` succeeds, decrements the counter when the file existed, and is a
complete no-op on the state when it is missing. -/
theorem file_set_delete_size (s : FileStorage) (key : String) (data : Bytes) :
    (FileStorage.Set none s key data).1 = Except.ok () ∧
    (FileStorage.Set none s key data).2.size
      = (if (lookupKey (sanitizeKey key) s.files).isSome
          then s.size else s.size + 1) ∧
    (FileStorage.Delete none s key).1 = Except.ok () ∧
    (FileStorage.Delete none s key).2.size
      = (if (lookupKey (sanitizeKey key) s.files).isSome
          then s.size - 1 else s.size) ∧
    (FileStorage.Delete none s key).2.files
      = (if (lookupKey (sanitizeKey key) s.files).isSome
          then mapDel s.files (sanitizeKey key) else s.files) := by
  match hlk : lookupKey (sanitizeKey key) s.files with
  | none =>
    refine ⟨rfl, ?_, ?_, ?_, ?_⟩ <;>
      simp [FileStorage.Set, FileStorage.Delete, hlk]
  | some v =>
    refine ⟨rfl, ?_, ?_, ?_, ?_⟩ <;>
      simp [FileStorage.Set, FileStorage.Delete, hlk]

/-- Claim C10: sanitization is not injective — the distinct keys `a:b` and
`a/b` sanitize to the same file name, so writing `a/b` silently overwrites
the value previously stored under `a:b`. -/
theorem sanitize_collision_overwrite :
    sanitizeKey "a:b" = sanitizeKey "a/b" ∧
    ("a:b" : String) ≠ "a/b" ∧
    (FileStorage.Get none
        (FileStorage.Set none
          ((FileStorage.Set none ⟨[], 0⟩ "a:b" [1]).2) "a/b" [2]).2
        "a:b").1 = Except.ok [2] :=
  ⟨rfl, by decide, rfl⟩
